import Mathlib

/-!
Verification development for the speechbox repository.

The repository consists of three Python modules:
  * `lidbox/dataset/tf_util.py` — TensorFlow utilities: `count_dim_sizes`,
    `make_label2onehot`, `extract_features`;
  * `speechbox/preprocess/features.py` — librosa-based feature extractors:
    `extract_features`, `mfcc`, `mfcc_deltas_012`;
  * `speechbox/commands/model.py` — the `Model` command: `create_model`,
    `get_loss_as_float`, `get_best_weights_checkpoint`, `train`,
    `evaluate_test_set`, `predict`, `run`.

The numeric work (FFT/spectrogram, mel filterbank, cepstral transform,
delta features, float parsing) is performed by external libraries
(TensorFlow, librosa, numpy, the Python runtime).  Those external calls are
embedded as *parameters*: records of opaque functions over which all
theorems quantify.  Everything the repository itself computes — control
flow, list/dict manipulation, slicing, elementwise arithmetic glue,
string processing, path construction — is embedded concretely, with
tensors as nested lists of rational scalars.
-/

namespace TfUtil

/-- Rectangular TensorFlow tensors are embedded as nested lists of scalars.
The embedding does not force rectangularity; the shape/rank functions below
read it off the first component, exactly as `tf.shape`/rank do for the
rectangular tensors the library actually produces. -/
inductive Tensor (α : Type) where
  | scalar (x : α)
  | arr (ts : List (Tensor α))

/-- Tensor rank (number of axes), as checked by `tf.debugging.assert_rank`. -/
def Tensor.rank {α : Type} : Tensor α → Nat
  | .scalar _ => 0
  | .arr [] => 1
  | .arr (t :: _) => 1 + t.rank

/-- `tf.shape`: the list of axis sizes of a (rectangular) tensor. -/
def Tensor.shape {α : Type} : Tensor α → List Nat
  | .scalar _ => []
  | .arr [] => [0]
  | .arr (t :: ts) => (ts.length + 1) :: t.shape

mutual

/-- Elementwise map over every scalar of a tensor (broadcasted arithmetic
such as `feat + 1e-6` and elementwise `tf.math.log`). -/
def Tensor.map {α β : Type} (f : α → β) : Tensor α → Tensor β
  | .scalar x => .scalar (f x)
  | .arr ts => .arr (Tensor.mapList f ts)

def Tensor.mapList {α β : Type} (f : α → β) : List (Tensor α) → List (Tensor β)
  | [] => []
  | t :: ts => Tensor.map f t :: Tensor.mapList f ts

end

mutual

/-- Does a Boolean predicate hold on every scalar of the tensor?
(`tf.debugging.assert_all_finite` with `p` = "is a finite float".) -/
def Tensor.forallScalars {α : Type} (p : α → Bool) : Tensor α → Bool
  | .scalar x => p x
  | .arr ts => Tensor.forallScalarsList p ts

def Tensor.forallScalarsList {α : Type} (p : α → Bool) : List (Tensor α) → Bool
  | [] => true
  | t :: ts => Tensor.forallScalars p t && Tensor.forallScalarsList p ts

end

def Tensor.isScalar {α : Type} : Tensor α → Bool
  | .scalar _ => true
  | .arr _ => false

mutual

/-- Python slicing `x[..., b:e]` on the last axis of a tensor: on the axis
whose entries are scalars, keep positions `b, …, e-1` (clamping like Python
slices). -/
def Tensor.sliceLast {α : Type} (b e : Nat) : Tensor α → Tensor α
  | .scalar x => .scalar x
  | .arr ts =>
    if ts.all Tensor.isScalar then .arr ((ts.drop b).take (e - b))
    else .arr (Tensor.sliceLastList b e ts)

def Tensor.sliceLastList {α : Type} (b e : Nat) : List (Tensor α) → List (Tensor α)
  | [] => []
  | t :: ts => Tensor.sliceLast b e t :: Tensor.sliceLastList b e ts

end

/-- Embedding of `tf.lookup.StaticHashTable` over string keys and int
values: `lookup` returns the value stored with the key, or `default` when
the key is absent.  (The repository only ever builds such a table with
distinct keys.) -/
structure StaticHashTable where
  keys : List String
  vals : List Nat
  default : Nat

def StaticHashTable.lookup (t : StaticHashTable) (k : String) : Nat :=
  match (t.keys.zip t.vals).find? (fun p => p.1 == k) with
  | some p => p.2
  | none => t.default

/-- `tf.one_hot(indices, depth)`: one row per index, row `i` has a 1 at
position `indices[i]` and 0 elsewhere. -/
def one_hot (indices : List Nat) (depth : Nat) : List (List Rat) :=
  indices.map (fun i => (List.range depth).map (fun j => if j = i then (1 : Rat) else 0))

/-- `make_label2onehot` (tf_util.py lines 56-77): enumerate the labels,
build a static hash table mapping label `i` to `i` with default
`len(labels)` ("label to int or one past last one if not found"), and the
one-hot matrix `OH = tf.one_hot(labels_enum, len(labels))`. -/
def make_label2onehot (labels : List String) : StaticHashTable × List (List Rat) :=
  let labels_enum := List.range labels.length
  let label2int : StaticHashTable :=
    { keys := labels, vals := labels_enum, default := labels.length }
  let OH := one_hot labels_enum labels.length
  (label2int, OH)

/-- Optional `coef_begin` / `coef_end` entries of `mfcc_kwargs`, read with
`mfcc_kwargs.get("coef_begin", 1)` and `mfcc_kwargs.get("coef_end", 13)`. -/
structure MfccKwargs where
  coef_begin : Option Nat
  coef_end : Option Nat

/-- The external TensorFlow / lidbox numerics invoked by `extract_features`,
passed as opaque parameters.  Each field is the corresponding library
function already closed over the `**kwargs` dictionary forwarded to it
(`spec_kwargs`, `melspec_kwargs`, `db_spec_kwargs`, `feat_scale_kwargs`,
`window_norm_kwargs`); `sample_rate` is kept explicit where the source
passes it explicitly.  `log` is the scalar function applied elementwise by
`tf.math.log`, and `finite` is the scalar predicate checked by
`tf.debugging.assert_all_finite`. -/
structure TFOps where
  spectrograms : Tensor Rat → Nat → Tensor Rat
  melspectrograms : Tensor Rat → Nat → Tensor Rat
  power_to_db : Tensor Rat → Tensor Rat
  mfccs_from_log_mel_spectrograms : Tensor Rat → Tensor Rat
  feature_scaling : Tensor Rat → Tensor Rat
  window_normalization : Tensor Rat → Tensor Rat
  log : Rat → Rat
  finite : Rat → Bool

/-- `extract_features` (tf_util.py lines 80-109).  `feat_scale_kwargs` and
`window_norm_kwargs` are Python dicts tested only for truthiness
(`if feat_scale_kwargs:`), so they are embedded as the Booleans
"dictionary is non-empty"; the functions they parameterize live in `ops`.
The two entry assertions and the final finiteness assertion are embedded
as `Except.error`; indexing `sample_rates[0]` on an empty batch also
raises. -/
def extract_features (ops : TFOps) (signals : Tensor Rat) (sample_rates : List Nat)
    (feattype : String) (mfcc_kwargs : MfccKwargs)
    (feat_scale_kwargs window_norm_kwargs : Bool) : Except String (Tensor Rat) :=
  if signals.rank ≠ 2 then
    .error "Input signals for feature extraction must be batches of mono signals without channels, i.e. of shape [B, N] where B is batch size and N number of samples."
  else
    match sample_rates with
    | [] => .error "slice index out of bounds"
    | sample_rate :: rest =>
      if rest.any (fun r => r ≠ sample_rate) then
        .error "Different sample rates in a single batch not supported, all signals in the same batch should have the same sample rate."
      else
        let feat := ops.spectrograms signals sample_rate
        let feat :=
          if feattype = "melspectrogram" ∨ feattype = "logmelspectrogram" ∨ feattype = "mfcc" then
            let feat := ops.melspectrograms feat sample_rate
            if feattype = "logmelspectrogram" ∨ feattype = "mfcc" then
              let feat := feat.map (fun x => ops.log (x + 1/1000000))
              if feattype = "mfcc" then
                let coef_begin := mfcc_kwargs.coef_begin.getD 1
                let coef_end := mfcc_kwargs.coef_end.getD 13
                let mfccs := ops.mfccs_from_log_mel_spectrograms feat
                mfccs.sliceLast coef_begin coef_end
              else feat
            else feat
          else if feattype = "db_spectrogram" then
            ops.power_to_db feat
          else feat
        let feat := if feat_scale_kwargs then ops.feature_scaling feat else feat
        let feat := if window_norm_kwargs then ops.window_normalization feat else feat
        if feat.forallScalars ops.finite then .ok feat
        else .error "Non-finite values after feature extraction"

/-- Increment position `j` of a list of counters, leaving the list
unchanged when `j` is out of range (`tf.tensor_scatter_nd_add` at a single
in-range index; in the source the index is always in range). -/
def incAt : List Nat → Nat → List Nat
  | [], _ => []
  | x :: xs, 0 => (x + 1) :: xs
  | x :: xs, j + 1 => x :: incAt xs j

/-- Python indexing `t[ds_element_index]` into a dataset element (a tuple
of tensors). -/
def tupleGet {α : Type} (es : List (Tensor α)) (i : Nat) : Tensor α :=
  (es.drop i).headD (.arr [])

/-- One row of the post-processing of `count_dim_sizes`: `tf.argsort` of
the per-size counts in descending order, `tf.gather` of the counts along
the sorted order, `boolean_mask` dropping zero counts, and
`tf.ragged.stack(..., axis=2)` pairing each kept count with its size.
`tf.argsort` leaves the relative order of equal counts unspecified; the
embedding fixes the stable order (ascending size among equal counts). -/
def processRow (row : List Nat) : List (Nat × Nat) :=
  let sorted := row.enum.insertionSort (fun p q => q.2 ≤ p.2)
  (sorted.filter (fun p => decide (0 < p.2))).map (fun p => (p.2, p.1))

/-- `count_dim_sizes` (tf_util.py lines 14-53): map every dataset element
to the shape of its tensor at `ds_element_index`, reduce to the largest
size over all axes, accumulate per-axis occurrence counts of every size by
scatter-add, and post-process each axis row with `processRow`.
`tf.debugging.assert_greater(ndims, 0)` is the entry assertion. -/
def count_dim_sizes (ds : List (List (Tensor Rat))) (ds_element_index : Nat) (ndims : Nat) :
    Except String (List (List (Nat × Nat))) :=
  if ndims = 0 then .error "assert_greater failed: ndims must be greater than 0"
  else
    let shapes := ds.map (fun es => (tupleGet es ds_element_index).shape)
    let max_sizes := shapes.foldl (fun acc s => acc.zipWith max s) (List.replicate ndims 0)
    let max_max_size := max_sizes.foldl max 0
    let size_counts := shapes.foldl
      (fun counter shape => counter.zipWith incAt shape)
      (List.replicate ndims (List.replicate (max_max_size + 1) 0))
    .ok (size_counts.map processRow)

/-- The feature chain of `extract_features` (tf_util.py lines 85-107):
the transformation applied between the entry assertions and the final
finiteness assertion, written as a standalone function of the already
validated `sample_rate`. -/
def feature_chain (ops : TFOps) (signals : Tensor Rat) (sample_rate : Nat)
    (feattype : String) (mfcc_kwargs : MfccKwargs)
    (feat_scale_kwargs window_norm_kwargs : Bool) : Tensor Rat :=
  let feat := ops.spectrograms signals sample_rate
  let feat :=
    if feattype = "melspectrogram" ∨ feattype = "logmelspectrogram" ∨ feattype = "mfcc" then
      let feat := ops.melspectrograms feat sample_rate
      if feattype = "logmelspectrogram" ∨ feattype = "mfcc" then
        let feat := feat.map (fun x => ops.log (x + 1/1000000))
        if feattype = "mfcc" then
          (ops.mfccs_from_log_mel_spectrograms feat).sliceLast
            (mfcc_kwargs.coef_begin.getD 1) (mfcc_kwargs.coef_end.getD 13)
        else feat
      else feat
    else if feattype = "db_spectrogram" then
      ops.power_to_db feat
    else feat
  let feat := if feat_scale_kwargs then ops.feature_scaling feat else feat
  if window_norm_kwargs then ops.window_normalization feat else feat

/-- Syntax of the calls available to the TensorFlow feature extractor: the
input signals, invocations of the external numerics library
(`spectrograms`, `melspectrograms`, `tf.math.log`,
`tf.signal.mfccs_from_log_mel_spectrograms`, `power_to_db`,
`feature_scaling`, `window_normalization`) and the only in-repository
tensor operations, the `+ 1e-6` shift folded into `logEps` and last-axis
slicing. -/
inductive ExtCall where
  | input
  | spec (c : ExtCall)
  | mel (c : ExtCall)
  | logEps (c : ExtCall)
  | mfccLib (c : ExtCall)
  | slice (b e : Nat) (c : ExtCall)
  | dbSpec (c : ExtCall)
  | scale (c : ExtCall)
  | norm (c : ExtCall)

/-- Interpretation of `ExtCall` syntax: every constructor other than
`input` and `slice` applies the corresponding field of the external-ops
record. -/
def ExtCall.denote (ops : TFOps) (signals : Tensor Rat) (sr : Nat) :
    ExtCall → Tensor Rat
  | .input => signals
  | .spec c => ops.spectrograms (c.denote ops signals sr) sr
  | .mel c => ops.melspectrograms (c.denote ops signals sr) sr
  | .logEps c => (c.denote ops signals sr).map (fun x => ops.log (x + 1/1000000))
  | .mfccLib c => ops.mfccs_from_log_mel_spectrograms (c.denote ops signals sr)
  | .slice b e c => (c.denote ops signals sr).sliceLast b e
  | .dbSpec c => ops.power_to_db (c.denote ops signals sr)
  | .scale c => ops.feature_scaling (c.denote ops signals sr)
  | .norm c => ops.window_normalization (c.denote ops signals sr)

/-- A concrete external-ops record (identity transforms, everything
finite) used to evaluate the embedding on closed inputs. -/
def sampleOps : TFOps where
  spectrograms := fun t _ => t
  melspectrograms := fun t _ => t
  power_to_db := fun t => t
  mfccs_from_log_mel_spectrograms := fun t => t
  feature_scaling := fun t => t
  window_normalization := fun t => t
  log := fun x => x
  finite := fun _ => true

/-- A concrete rank-2 signal batch used to evaluate the embedding on
closed inputs. -/
def sampleSignals : Tensor Rat := .arr [.arr [.scalar 0]]

end TfUtil

namespace Features

/-- The external librosa / numpy numerics invoked by
speechbox/preprocess/features.py, passed as opaque parameters.
`melspectrogram` is `librosa.feature.melspectrogram(y, sr)`; `powS` is the
numpy scalar power `x ** p`; `npmax` is `np.max` over a matrix;
`power_to_db` is `librosa.power_to_db(S, ref)` with the reference value
made explicit (the source passes `ref=np.max`, which librosa applies to
`S`); `mfcc_lib` is `librosa.feature.mfcc(y, sr, S, **kwargs)` closed over
its kwargs; `normalize_l2` is `librosa.util.normalize(m, norm=2.0,
axis=0)`; `delta m order width` is `librosa.feature.delta(m, order=order,
width=width)`. -/
structure LibrosaOps where
  melspectrogram : List Rat → Nat → List (List Rat)
  powS : Rat → Rat → Rat
  npmax : List (List Rat) → Rat
  power_to_db : List (List Rat) → Rat → List (List Rat)
  mfcc_lib : List Rat → Nat → List (List Rat) → List (List Rat)
  normalize_l2 : List (List Rat) → List (List Rat)
  delta : List (List Rat) → Nat → Nat → List (List Rat)

/-- numpy transpose `.T` of a rectangular matrix stored as a list of
rows. -/
def transposeM (M : List (List Rat)) : List (List Rat) :=
  (List.range (M.headD []).length).map (fun j => M.map (fun r => r.getD j 0))

/-- `mfcc` (features.py lines 14-26): mel-spectrogram of the signal, power
scaling and conversion to decibels with `ref=np.max`, the librosa MFCC
transform, optional per-coefficient L2 normalization, transposed on
return. -/
def mfcc (ops : LibrosaOps) (utterance : List Rat × Nat) (normalize : Bool)
    (mel_spec_power : Rat) : List (List Rat) :=
  let signal := utterance.1
  let rate := utterance.2
  let S := ops.melspectrogram signal rate
  let Spow := S.map (fun row => row.map (fun x => ops.powS x mel_spec_power))
  let S := ops.power_to_db Spow (ops.npmax Spow)
  let mfccs := ops.mfcc_lib signal rate S
  let mfccs := if normalize then ops.normalize_l2 mfccs else mfccs
  transposeM mfccs

/-- The numpy strided assignments of `mfcc_deltas_012`
(`features[0::3] = mfccs; features[1::3] = d1; features[2::3] = d2` into
`np.empty((3*m, T))`): row `3k` is `mfccs[k]`, row `3k+1` is `d1[k]`, row
`3k+2` is `d2[k]`.  numpy requires the three sources to have exactly `m`
rows each; the embedding truncates to the shortest, which coincides with
the source whenever the shape requirement holds. -/
def interleave3 {β : Type} : List β → List β → List β → List β
  | a :: as, b :: bs, c :: cs => a :: b :: c :: interleave3 as bs cs
  | _, _, _ => []

/-- `mfcc_deltas_012` (features.py lines 28-41): take the MFCC matrix
(transposed back to coefficients × frames), compute first-order deltas
with width 3 and second-order deltas with width 5, interleave the three
row blocks per coefficient, and return the frames × features transpose. -/
def mfcc_deltas_012 (ops : LibrosaOps) (utterance : List Rat × Nat)
    (normalize : Bool) (mel_spec_power : Rat) : List (List Rat) :=
  let mfccs := transposeM (mfcc ops utterance normalize mel_spec_power)
  let d1 := ops.delta mfccs 1 3
  let d2 := ops.delta mfccs 2 5
  transposeM (interleave3 mfccs d1 d2)

/-- A concrete external-ops record (identity-like transforms over a fixed
2x2 mel-spectrogram) for evaluating the librosa embedding on closed
inputs. -/
def sampleLibrosaOps : LibrosaOps where
  melspectrogram := fun _ _ => [[1, 2], [3, 4]]
  powS := fun x _ => x
  npmax := fun _ => 0
  power_to_db := fun S _ => S
  mfcc_lib := fun _ _ S => S
  normalize_l2 := fun m => m
  delta := fun m _ _ => m

end Features

namespace Model

/-- `os.path.join` of two components (no component in the repository ends
with a separator). -/
def joinPath (a b : String) : String := a ++ "/" ++ b

/-- `os.path.basename`. -/
def baseName (p : String) : String := (p.splitOn "/").getLastD p

/-- Values stored in the configuration dictionaries of model.py. -/
inductive CVal where
  | s (v : String)
  | b (v : Bool)
  | n (v : Nat)
deriving DecidableEq

/-- Python dicts with string keys, as association lists; the YAML
configuration dicts the source reads have distinct keys, and `dictLookup`
returns the first binding. -/
abbrev Dict := List (String × CVal)

def dictLookup (d : Dict) (k : String) : Option CVal :=
  (d.find? (fun p => p.1 == k)).map (fun p => p.2)

/-- Python `dict(defaults, **overrides)`: every key of `overrides`
overrides the binding in `defaults`. -/
def dictMerge (defaults overrides : Dict) : Dict :=
  overrides ++ defaults

/-- The entries of the model configuration dictionary read by
`create_model`: `model_config.get("tensorboard", {})`,
`model_config.get("checkpoints", {})`, `model_config.get("early_stopping")`
and `model_config.get("eval_device")`. -/
structure ModelConfig where
  tensorboard : Option Dict
  checkpoints : Option Dict
  early_stopping : Option CVal
  eval_device : Option CVal

/-- The `callbacks_kwargs` value `create_model` passes to `KerasWrapper`:
either the training form with `checkpoints`, `early_stopping` and
`tensorboard` entries, or (when `--train` is absent) a dictionary holding
only `device_str`. -/
inductive CallbacksKwargs where
  | training (checkpoints : Option Dict) (early_stopping : Option CVal) (tensorboard : Dict)
  | evalOnly (device_str : Option CVal)

/-- `create_model` (model.py lines 43-82), restricted to the
`callbacks_kwargs` it computes and hands to `models.KerasWrapper`
(directory creation and verbose printing are side effects outside the
embedding).  `now_str` is the formatted current time. -/
def create_model_callbacks (no_save_model train : Bool)
    (cache_dir model_id now_str : String) (model_config : ModelConfig) :
    CallbacksKwargs :=
  let model_cache_dir := joinPath cache_dir model_id
  let tensorboard_dir :=
    joinPath (joinPath (joinPath model_cache_dir "tensorboard") "log") now_str
  let default_tensorboard_config : Dict :=
    [("log_dir", .s tensorboard_dir), ("write_graph", .b false)]
  let tensorboard_config :=
    dictMerge default_tensorboard_config (model_config.tensorboard.getD [])
  let checkpoint_dir := joinPath model_cache_dir "checkpoints"
  let checkpoint_format := "epoch\x7bepoch:02d\x7d_loss\x7bval_loss:.2f\x7d.hdf5"
  let default_checkpoints_config : Dict :=
    [("filepath", .s (joinPath checkpoint_dir checkpoint_format)),
     ("load_weights_on_restart", .b true),
     ("mode", .s "min"),
     ("monitor", .s "val_loss"),
     ("save_best_only", .b true),
     ("verbose", .n 0)]
  let checkpoints_config :=
    dictMerge default_checkpoints_config (model_config.checkpoints.getD [])
  let callbacks_kwargs : CallbacksKwargs :=
    .training (if no_save_model then none else some checkpoints_config)
      model_config.early_stopping tensorboard_config
  if ¬ train then .evalOnly model_config.eval_device
  else callbacks_kwargs

/-- Python `str.split(sep)` for a separator known to be non-empty, on
strings as lists of characters: split at each left-to-right
non-overlapping occurrence of `sep`. -/
def pySplit (sep : List Char) : List Char → List (List Char)
  | [] => [[]]
  | c :: cs =>
    if h : sep ≠ [] ∧ sep.isPrefixOf (c :: cs) then
      [] :: pySplit sep (List.drop sep.length (c :: cs))
    else
      match pySplit sep cs with
      | [] => [[c]]
      | g :: gs => (c :: g) :: gs
termination_by s => s.length
decreasing_by
  · have hlen : sep.length ≠ 0 := by
      intro h0
      exact h.1 (List.length_eq_zero.mp h0)
    simp only [List.length_drop, List.length_cons]
    omega
  · simp only [List.length_cons]
    omega

/-- `get_loss_as_float` (model.py lines 84-86):
`float(checkpoint_filename.split("loss")[-1].split(".hdf5")[0])`, with the
Python `float` parser as the external parameter `toFloat`. -/
def get_loss_as_float (toFloat : List Char → Rat)
    (checkpoint_filename : List Char) : Rat :=
  toFloat ((pySplit ".hdf5".toList
    ((pySplit "loss".toList checkpoint_filename).getLastD [])).headD [])

/-- Python `min(x :: xs, key=key)`: the first element attaining the
minimal key. -/
def pymin (key : List Char → Rat) : List Char → List (List Char) → List Char
  | best, [] => best
  | best, x :: xs => if key x < key best then pymin key x xs else pymin key best xs

/-- `get_best_weights_checkpoint` returns the Python int 1 on an empty
checkpoints directory and a path string otherwise. -/
inductive CheckpointResult where
  | errCode (n : Nat)
  | path (p : List Char)

/-- `get_best_weights_checkpoint` (model.py lines 88-98).  `listing` is
the external filesystem state `os.listdir(checkpoints_dir)`. -/
def get_best_weights_checkpoint (toFloat : List Char → Rat)
    (cache_dir model_id : String) (listing : List (List Char)) :
    CheckpointResult :=
  let checkpoints_dir := joinPath (joinPath cache_dir model_id) "checkpoints"
  match listing with
  | [] => .errCode 1
  | f :: fs =>
    .path (checkpoints_dir.toList ++ '/' :: pymin (get_loss_as_float toFloat) f fs)

/-- The filtering loop of the confusion-matrix branch (model.py lines
163-169): walk `zip(test_set_data["labels"], transformer)` and keep
`(label, utterance)` for every transformer result whose utterance is not
None. -/
def collectTest {U : Type} : List (String × (String × Option U)) → List (String × U)
  | [] => []
  | (_, (_, none)) :: rest => collectTest rest
  | (label, (_, some u)) :: rest => (label, u) :: collectTest rest

/-- The data determined by the confusion-matrix branch of
`evaluate_test_set`: the kept labels and utterances, the integer labels
passed to `model.evaluate_confusion_matrix`, and the path the figure is
written to. -/
structure ConfusionBranchResult (U : Type) where
  test_labels : List String
  test_utterances : List U
  real_labels : List Nat
  cm_figure_path : String

/-- The `--evaluate-test-set confusion-matrix` branch of
`evaluate_test_set` (model.py lines 156-177), as a function of the data it
reads: the test-set `labels`, the stream `transformed` of
`(path, utterance-or-None)` pairs produced by the external
`transformations.files_to_utterances`, the `label_to_index` state mapping,
the cache directory and the best checkpoint path.  The confusion matrix
itself and the figure rendering are external calls receiving exactly the
returned data. -/
def evaluate_test_set_confusion_branch {U : Type} (labels : List String)
    (transformed : List (String × Option U)) (label_to_index : String → Nat)
    (cache_dir best_checkpoint : String) : ConfusionBranchResult U :=
  let kept := collectTest (labels.zip transformed)
  let test_labels := kept.map (fun p => p.1)
  let test_utterances := kept.map (fun p => p.2)
  let real_labels := test_labels.map label_to_index
  let figure_name :=
    "confusion-matrix_test-set_model-" ++ baseName best_checkpoint ++ ".svg"
  { test_labels := test_labels
    test_utterances := test_utterances
    real_labels := real_labels
    cm_figure_path := joinPath cache_dir figure_name }

end Model

-- THEOREM_SECTION
namespace TfUtil

theorem find_zip_range' (l : List String) (k i : Nat) (hi : i < l.length)
    (hnd : l.Nodup) :
    (l.zip (List.range' k l.length)).find? (fun p => p.1 == l.get ⟨i, hi⟩) =
      some (l.get ⟨i, hi⟩, k + i) := by
  induction l generalizing k i with
  | nil => simp at hi
  | cons a tl ih =>
    have hr : List.range' k (a :: tl).length = k :: List.range' (k + 1) tl.length := by
      rw [List.length_cons, List.range'_succ]
    rw [hr, List.zip_cons_cons]
    cases i with
    | zero =>
      rw [List.find?_cons_of_pos]
      · simp
      · simp
    | succ j =>
      have hj : j < tl.length := by simpa using hi
      have hget : (a :: tl).get ⟨j + 1, hi⟩ = tl.get ⟨j, hj⟩ := rfl
      have hmem : tl.get ⟨j, hj⟩ ∈ tl := tl.get_mem _ hj
      have hne : a ≠ tl.get ⟨j, hj⟩ := by
        intro h
        exact (List.nodup_cons.mp hnd).1 (h ▸ hmem)
      rw [hget, List.find?_cons_of_neg]
      · rw [ih j hj (List.nodup_cons.mp hnd).2 (k := k + 1)]
        congr 1
        rw [Prod.mk.injEq]
        exact ⟨rfl, by omega⟩
      · simpa using hne

theorem getD_map_range {β : Type} (n : Nat) (f : Nat → β) (i : Nat) (d : β)
    (hi : i < n) : ((List.range n).map f).getD i d = f i := by
  rw [List.getD_eq_getElem?_getD, List.getElem?_map, List.getElem?_range hi]
  rfl

/-- C1: for a non-empty list of `n` distinct labels, `make_label2onehot`
returns a lookup table mapping `labels[i]` to `i` for every `i < n`, and a
one-hot matrix `OH` of `n` rows in which row `i` has length `n`, value 1 at
position `i` and value 0 at every other position. -/
theorem make_label2onehot_correct (labels : List String)
    (hne : labels ≠ []) (hnd : labels.Nodup) (i : Nat) (hi : i < labels.length) :
    (make_label2onehot labels).1.lookup (labels.get ⟨i, hi⟩) = i ∧
    (make_label2onehot labels).2.length = labels.length ∧
    ((make_label2onehot labels).2.getD i []).length = labels.length ∧
    ((make_label2onehot labels).2.getD i []).getD i 0 = 1 ∧
    ∀ j, j < labels.length → j ≠ i →
      ((make_label2onehot labels).2.getD i []).getD j 0 = 0 := by
  have hrow : (make_label2onehot labels).2.getD i [] =
      (List.range labels.length).map
        (fun j => if j = i then (1 : Rat) else 0) := by
    have := getD_map_range labels.length
      (fun i => (List.range labels.length).map
        (fun j => if j = i then (1 : Rat) else 0)) i [] hi
    simpa [make_label2onehot, one_hot] using this
  refine ⟨?_, ?_, ?_, ?_, ?_⟩
  · have := find_zip_range' labels 0 i hi hnd
    simp only [make_label2onehot, StaticHashTable.lookup, List.range_eq_range']
    rw [this]
    show 0 + i = i
    omega
  · simp [make_label2onehot, one_hot]
  · rw [hrow]
    simp
  · rw [hrow, getD_map_range _ _ _ _ hi]
    simp
  · intro j hj hji
    rw [hrow, getD_map_range _ _ _ _ hj]
    simp [hji]

theorem make_label2onehot_correct_witness :
    (make_label2onehot ["one", "two", "three"]).1.lookup "two" = 1 ∧
    ((make_label2onehot ["one", "two", "three"]).2.getD 1 []).getD 1 0 = 1 ∧
    ((make_label2onehot ["one", "two", "three"]).2.getD 1 []).getD 2 0 = 0 := by
  have h := make_label2onehot_correct ["one", "two", "three"] (by decide)
    (by decide) 1 (by decide)
  exact ⟨h.1, h.2.2.2.1, h.2.2.2.2 2 (by decide) (by decide)⟩

/-- C10: the lookup table built by `make_label2onehot` maps every key that
does not occur in the label list to the default value `len(labels)`, one
past the largest valid label index, instead of raising. -/
theorem label2int_default_on_unknown (labels : List String) (k : String)
    (hk : k ∉ labels) :
    (make_label2onehot labels).1.lookup k = labels.length := by
  simp only [make_label2onehot, StaticHashTable.lookup]
  have : (labels.zip (List.range labels.length)).find? (fun p => p.1 == k) = none := by
    rw [List.find?_eq_none]
    intro p hp
    have : p.1 ∈ labels := (List.of_mem_zip (by exact hp)).1
    simp only [beq_iff_eq]
    intro h
    exact hk (h ▸ this)
  rw [this]

theorem label2int_default_on_unknown_witness :
    (make_label2onehot ["one", "two", "three"]).1.lookup "four" = 3 :=
  label2int_default_on_unknown ["one", "two", "three"] "four" (by decide)

/-- Under the entry preconditions, `extract_features` is the feature chain
guarded by the final finiteness assertion. -/
theorem extract_features_precond (ops : TFOps) (signals : Tensor Rat)
    (sr : Nat) (rest : List Nat) (ft : String) (mk : MfccKwargs)
    (fsk wnk : Bool) (h2 : signals.rank = 2) (hsr : ∀ r ∈ rest, r = sr) :
    extract_features ops signals (sr :: rest) ft mk fsk wnk =
      if (feature_chain ops signals sr ft mk fsk wnk).forallScalars ops.finite
      then .ok (feature_chain ops signals sr ft mk fsk wnk)
      else .error "Non-finite values after feature extraction" := by
  have hany : (rest.any fun r => decide (r ≠ sr)) = false := by
    simp only [List.any_eq_false, decide_eq_true_eq]
    intro r hr
    simp [hsr r hr]
  simp only [extract_features, feature_chain, h2, ne_eq, not_true_eq_false,
    Bool.false_eq_true, if_false, hany]

/-- C2: for a rank-2 batch of signals sharing one sample rate (and empty
feature-scaling and window-normalization kwargs), the features returned by
`extract_features` with feattype "mfcc" are the coefficients
`[coef_begin:coef_end]` (defaults 1 and 13) of the cepstral transform of
the elementwise log of (mel-spectrogram of the spectrogram + 1e-6);
"melspectrogram" stops the chain after the mel step, "logmelspectrogram"
after the log step, and "db_spectrogram" applies `power_to_db` to the
spectrogram. -/
theorem extract_features_feattype_chains (ops : TFOps) (signals : Tensor Rat)
    (sr : Nat) (rest : List Nat) (mk : MfccKwargs)
    (h2 : signals.rank = 2) (hsr : ∀ r ∈ rest, r = sr) :
    (∀ feat, extract_features ops signals (sr :: rest) "mfcc" mk false false = .ok feat →
      feat = (ops.mfccs_from_log_mel_spectrograms
          ((ops.melspectrograms (ops.spectrograms signals sr) sr).map
            (fun x => ops.log (x + 1/1000000)))).sliceLast
          (mk.coef_begin.getD 1) (mk.coef_end.getD 13)) ∧
    (∀ feat, extract_features ops signals (sr :: rest) "melspectrogram" mk false false = .ok feat →
      feat = ops.melspectrograms (ops.spectrograms signals sr) sr) ∧
    (∀ feat, extract_features ops signals (sr :: rest) "logmelspectrogram" mk false false = .ok feat →
      feat = (ops.melspectrograms (ops.spectrograms signals sr) sr).map
          (fun x => ops.log (x + 1/1000000))) ∧
    (∀ feat, extract_features ops signals (sr :: rest) "db_spectrogram" mk false false = .ok feat →
      feat = ops.power_to_db (ops.spectrograms signals sr)) := by
  refine ⟨?_, ?_, ?_, ?_⟩ <;> intro feat hfeat <;>
    rw [extract_features_precond ops signals sr rest _ mk false false h2 hsr] at hfeat <;>
    split at hfeat <;> cases hfeat <;> simp [feature_chain]

theorem extract_features_feattype_chains_witness :
    sampleSignals = sampleOps.melspectrograms
      (sampleOps.spectrograms sampleSignals 16000) 16000 :=
  (extract_features_feattype_chains sampleOps sampleSignals 16000 []
    ⟨none, none⟩ rfl (by simp)).2.1 sampleSignals rfl

/-- C8: `extract_features` raises on every batch whose signals tensor is
not of rank 2, and on every rank-2 batch containing two different sample
rates; on a rank-2 batch with one common sample rate both entry assertions
pass and the final assertion raises exactly when the feature chain's
result contains a non-finite value. -/
theorem extract_features_assertions (ops : TFOps) (signals : Tensor Rat)
    (sample_rates : List Nat) (ft : String) (mk : MfccKwargs) (fsk wnk : Bool) :
    (signals.rank ≠ 2 →
      extract_features ops signals sample_rates ft mk fsk wnk =
        .error "Input signals for feature extraction must be batches of mono signals without channels, i.e. of shape [B, N] where B is batch size and N number of samples.") ∧
    (signals.rank = 2 → ∀ r₁ r₂, r₁ ∈ sample_rates → r₂ ∈ sample_rates → r₁ ≠ r₂ →
      extract_features ops signals sample_rates ft mk fsk wnk =
        .error "Different sample rates in a single batch not supported, all signals in the same batch should have the same sample rate.") ∧
    (∀ sr rest, sample_rates = sr :: rest → signals.rank = 2 → (∀ r ∈ rest, r = sr) →
      extract_features ops signals sample_rates ft mk fsk wnk =
        if (feature_chain ops signals sr ft mk fsk wnk).forallScalars ops.finite
        then .ok (feature_chain ops signals sr ft mk fsk wnk)
        else .error "Non-finite values after feature extraction") := by
  refine ⟨?_, ?_, ?_⟩
  · intro h
    simp [extract_features, h]
  · intro h2 r₁ r₂ h₁ h₂ hne
    cases sample_rates with
    | nil => cases h₁
    | cons sr rest =>
      have hex : ∃ r ∈ rest, r ≠ sr := by
        rcases List.mem_cons.mp h₁ with rfl | h₁r
        · rcases List.mem_cons.mp h₂ with rfl | h₂r
          · exact absurd rfl hne
          · exact ⟨r₂, h₂r, fun h => hne h.symm⟩
        · by_cases hr1 : r₁ = sr
          · rcases List.mem_cons.mp h₂ with rfl | h₂r
            · exact ⟨r₁, h₁r, fun h => hne (h.trans rfl)⟩
            · exact ⟨r₂, h₂r, fun h => hne (hr1.trans h.symm)⟩
          · exact ⟨r₁, h₁r, hr1⟩
      rcases hex with ⟨r, hr, hrne⟩
      simp [extract_features, h2]
      intro habs
      exact absurd (habs r hr) hrne
  · rintro sr rest rfl h2 hsr
    exact extract_features_precond ops signals sr rest ft mk fsk wnk h2 hsr

theorem extract_features_assertions_witness :
    extract_features sampleOps (.scalar 0) [16000] "mfcc" ⟨none, none⟩ false false =
      .error "Input signals for feature extraction must be batches of mono signals without channels, i.e. of shape [B, N] where B is batch size and N number of samples." ∧
    extract_features sampleOps sampleSignals [16000, 8000] "mfcc" ⟨none, none⟩ false false =
      .error "Different sample rates in a single batch not supported, all signals in the same batch should have the same sample rate." ∧
    extract_features sampleOps sampleSignals [16000] "melspectrogram" ⟨none, none⟩ false false =
      if (feature_chain sampleOps sampleSignals 16000 "melspectrogram" ⟨none, none⟩
          false false).forallScalars sampleOps.finite
      then .ok (feature_chain sampleOps sampleSignals 16000 "melspectrogram" ⟨none, none⟩ false false)
      else .error "Non-finite values after feature extraction" := by
  have h := extract_features_assertions sampleOps (.scalar 0) [16000] "mfcc" ⟨none, none⟩ false false
  have h₂ := extract_features_assertions sampleOps sampleSignals [16000, 8000] "mfcc" ⟨none, none⟩ false false
  have h₃ := extract_features_assertions sampleOps sampleSignals [16000] "melspectrogram" ⟨none, none⟩ false false
  refine ⟨h.1 (by decide), ?_, ?_⟩
  · exact h₂.2.1 rfl 16000 8000 (by simp) (by simp) (by decide)
  · exact h₃.2.2 16000 [] rfl rfl (by simp)

/-- Every feature chain is the denotation of a composition of
external-library calls. -/
theorem feature_chain_is_extcall (ops : TFOps) (signals : Tensor Rat) (sr : Nat)
    (ft : String) (mk : MfccKwargs) (fsk wnk : Bool) :
    ∃ c : ExtCall,
      feature_chain ops signals sr ft mk fsk wnk = c.denote ops signals sr := by
  have hbase : ∃ b : ExtCall,
      feature_chain ops signals sr ft mk false false = b.denote ops signals sr := by
    by_cases h1 : ft = "mfcc"
    · exact ⟨.slice (mk.coef_begin.getD 1) (mk.coef_end.getD 13)
        (.mfccLib (.logEps (.mel (.spec .input)))),
        by simp [feature_chain, ExtCall.denote, h1]⟩
    · by_cases h2 : ft = "logmelspectrogram"
      · exact ⟨.logEps (.mel (.spec .input)),
          by simp [feature_chain, ExtCall.denote, h1, h2]⟩
      · by_cases h3 : ft = "melspectrogram"
        · exact ⟨.mel (.spec .input),
            by simp [feature_chain, ExtCall.denote, h1, h2, h3]⟩
        · by_cases h4 : ft = "db_spectrogram"
          · exact ⟨.dbSpec (.spec .input),
              by simp [feature_chain, ExtCall.denote, h1, h2, h3, h4]⟩
          · exact ⟨.spec .input,
              by simp [feature_chain, ExtCall.denote, h1, h2, h3, h4]⟩
  rcases hbase with ⟨b, hb⟩
  cases fsk with
  | false =>
    cases wnk with
    | false => exact ⟨b, hb⟩
    | true =>
      refine ⟨.norm b, ?_⟩
      show ops.window_normalization (feature_chain ops signals sr ft mk false false) =
        ops.window_normalization (b.denote ops signals sr)
      rw [hb]
  | true =>
    cases wnk with
    | false =>
      refine ⟨.scale b, ?_⟩
      show ops.feature_scaling (feature_chain ops signals sr ft mk false false) =
        ops.feature_scaling (b.denote ops signals sr)
      rw [hb]
    | true =>
      refine ⟨.norm (.scale b), ?_⟩
      show ops.window_normalization (ops.feature_scaling
          (feature_chain ops signals sr ft mk false false)) =
        ops.window_normalization (ops.feature_scaling (b.denote ops signals sr))
      rw [hb]

/-- C7: the hard numerics (FFT-based spectrogram, mel filterbank, MFCC
derivation) are not implemented in the repository: every feature tensor
returned by the TensorFlow `extract_features` is the denotation of a
composition of external-library calls applied to the input signals, and
the librosa `mfcc` extractor returns the transposed output of
`librosa.feature.mfcc` applied to librosa-computed spectra — both for
every interpretation of the external ops records. -/
theorem numerics_via_external_library :
    (∀ (ops : TFOps) (signals : Tensor Rat) (sample_rates : List Nat)
        (ft : String) (mk : MfccKwargs) (fsk wnk : Bool) (feat : Tensor Rat),
      extract_features ops signals sample_rates ft mk fsk wnk = .ok feat →
      ∃ (sr : Nat) (c : ExtCall), sr ∈ sample_rates ∧
        feat = c.denote ops signals sr) ∧
    (∀ (lops : Features.LibrosaOps) (utt : List Rat × Nat) (nz : Bool) (p : Rat),
      Features.mfcc lops utt nz p =
        Features.transposeM
          ((fun m => if nz then lops.normalize_l2 m else m)
            (lops.mfcc_lib utt.1 utt.2
              (lops.power_to_db
                ((lops.melspectrogram utt.1 utt.2).map
                  (fun row => row.map (fun x => lops.powS x p)))
                (lops.npmax ((lops.melspectrogram utt.1 utt.2).map
                  (fun row => row.map (fun x => lops.powS x p)))))))) := by
  constructor
  · intro ops signals sample_rates ft mk fsk wnk feat h
    by_cases h2 : signals.rank = 2
    · cases sample_rates with
      | nil => simp [extract_features, h2] at h
      | cons sr rest =>
        by_cases hany : (rest.any fun r => decide (r ≠ sr)) = true
        · simp only [extract_features, h2, ne_eq, not_true_eq_false,
            Bool.false_eq_true, if_false, hany, if_true] at h
          exact Except.noConfusion h
        · have hsr : ∀ r ∈ rest, r = sr := by
            intro r hr
            by_contra hne
            exact hany (by
              simp only [List.any_eq_true, decide_eq_true_eq]
              exact ⟨r, hr, hne⟩)
          rw [extract_features_precond ops signals sr rest ft mk fsk wnk h2 hsr] at h
          rcases feature_chain_is_extcall ops signals sr ft mk fsk wnk with ⟨c, hc⟩
          refine ⟨sr, c, List.mem_cons_self _ _, ?_⟩
          split at h
          · cases h
            exact hc
          · cases h
    · simp [extract_features, h2] at h
  · intro lops utt nz p
    rfl

theorem numerics_via_external_library_witness :
    ∃ (sr : Nat) (c : ExtCall), sr ∈ [16000] ∧
      sampleSignals = c.denote sampleOps sampleSignals sr :=
  numerics_via_external_library.1 sampleOps sampleSignals [16000]
    "melspectrogram" ⟨none, none⟩ false false sampleSignals rfl

end TfUtil

theorem getD_cons3 {β : Type} (a b c : β) (l : List β) (n : Nat) (d : β) :
    (a :: b :: c :: l).getD (n + 3) d = l.getD n d := rfl

theorem getD_map_lt {α β : Type} (l : List α) (f : α → β) (k : Nat) (d : β)
    (d₀ : α) (hk : k < l.length) : (l.map f).getD k d = f (l.getD k d₀) := by
  rw [List.getD_eq_getElem?_getD, List.getElem?_map, List.getElem?_eq_getElem hk,
    List.getD_eq_getElem?_getD, List.getElem?_eq_getElem hk]
  rfl

namespace Features

theorem interleave3_length {β : Type} (as : List β) : ∀ (bs cs : List β),
    as.length = bs.length → as.length = cs.length →
    (interleave3 as bs cs).length = 3 * as.length := by
  induction as with
  | nil => intro bs cs h1 h2; simp [interleave3]
  | cons a as ih =>
    intro bs cs h1 h2
    cases bs with
    | nil => simp at h1
    | cons b bs =>
      cases cs with
      | nil => simp at h2
      | cons c cs =>
        simp only [interleave3, List.length_cons]
        rw [ih bs cs (by simpa using h1) (by simpa using h2)]
        omega

theorem mem_interleave3 {β : Type} (as : List β) : ∀ (bs cs : List β) (r : β),
    r ∈ interleave3 as bs cs → r ∈ as ∨ r ∈ bs ∨ r ∈ cs := by
  induction as with
  | nil => intro bs cs r h; simp [interleave3] at h
  | cons a as ih =>
    intro bs cs r h
    cases bs with
    | nil => simp [interleave3] at h
    | cons b bs =>
      cases cs with
      | nil => simp [interleave3] at h
      | cons c cs =>
        simp only [interleave3, List.mem_cons] at h
        rcases h with rfl | rfl | rfl | h
        · exact Or.inl (List.mem_cons_self _ _)
        · exact Or.inr (Or.inl (List.mem_cons_self _ _))
        · exact Or.inr (Or.inr (List.mem_cons_self _ _))
        · rcases ih bs cs r h with h | h | h
          · exact Or.inl (List.mem_cons_of_mem _ h)
          · exact Or.inr (Or.inl (List.mem_cons_of_mem _ h))
          · exact Or.inr (Or.inr (List.mem_cons_of_mem _ h))

theorem interleave3_getD {β : Type} (d : β) (as : List β) :
    ∀ (bs cs : List β) (k : Nat),
    as.length = bs.length → as.length = cs.length → k < as.length →
    (interleave3 as bs cs).getD (3 * k) d = as.getD k d ∧
    (interleave3 as bs cs).getD (3 * k + 1) d = bs.getD k d ∧
    (interleave3 as bs cs).getD (3 * k + 2) d = cs.getD k d := by
  induction as with
  | nil => intro bs cs k _ _ hk; simp at hk
  | cons a as ih =>
    intro bs cs k h1 h2 hk
    cases bs with
    | nil => simp at h1
    | cons b bs =>
      cases cs with
      | nil => simp at h2
      | cons c cs =>
        cases k with
        | zero => simp [interleave3]
        | succ k =>
          obtain ⟨ih1, ih2, ih3⟩ :=
            ih bs cs k (by simpa using h1) (by simpa using h2) (by simpa using hk)
          have e0 : 3 * (k + 1) = 3 * k + 3 := by ring
          have e1 : 3 * (k + 1) + 1 = (3 * k + 1) + 3 := by ring
          have e2 : 3 * (k + 1) + 2 = (3 * k + 2) + 3 := by ring
          refine ⟨?_, ?_, ?_⟩
          · rw [show interleave3 (a :: as) (b :: bs) (c :: cs) =
              a :: b :: c :: interleave3 as bs cs from rfl, e0, getD_cons3,
              List.getD_cons_succ]
            exact ih1
          · rw [show interleave3 (a :: as) (b :: bs) (c :: cs) =
              a :: b :: c :: interleave3 as bs cs from rfl, e1, getD_cons3,
              List.getD_cons_succ]
            exact ih2
          · rw [show interleave3 (a :: as) (b :: bs) (c :: cs) =
              a :: b :: c :: interleave3 as bs cs from rfl, e2, getD_cons3,
              List.getD_cons_succ]
            exact ih3

theorem transposeM_length (A : List (List Rat)) (T : Nat) (hA : A ≠ [])
    (hrows : ∀ r ∈ A, r.length = T) : (transposeM A).length = T := by
  cases A with
  | nil => cases hA rfl
  | cons r rs => simp [transposeM, hrows r (List.mem_cons_self r rs)]

theorem transposeM_getD (A : List (List Rat)) (T t : Nat) (hA : A ≠ [])
    (hrows : ∀ r ∈ A, r.length = T) (ht : t < T) :
    (transposeM A).getD t [] = A.map (fun r => r.getD t 0) := by
  cases A with
  | nil => cases hA rfl
  | cons r rs =>
    have hr : r.length = T := hrows r (List.mem_cons_self r rs)
    simp only [transposeM, List.headD_cons]
    exact TfUtil.getD_map_range r.length _ t [] (by omega)

/-- C4: `mfcc_deltas_012` returns per-frame feature vectors of width three
times the number `m` of MFCC coefficients in which, for every coefficient
index `k` and frame `t`, position `3k` holds the `k`-th MFCC coefficient,
position `3k+1` its first-order delta computed with width 3, and position
`3k+2` its second-order delta computed with width 5.  `M` is the
coefficients × frames MFCC matrix of the function (`m` coefficients, `T`
frames); the shape hypotheses are the numpy/librosa shape guarantees
(`librosa.feature.delta` preserves the shape of its input) under which the
source's strided assignments are defined. -/
theorem mfcc_deltas_012_interleaving (ops : LibrosaOps) (utt : List Rat × Nat)
    (nz : Bool) (p : Rat) (m T : Nat) (M d1 d2 : List (List Rat))
    (hM : M = transposeM (mfcc ops utt nz p))
    (hd1 : d1 = ops.delta M 1 3) (hd2 : d2 = ops.delta M 2 5)
    (hm : M.length = m) (hm0 : 0 < m)
    (hMr : ∀ r ∈ M, r.length = T)
    (hd1l : d1.length = m) (hd1r : ∀ r ∈ d1, r.length = T)
    (hd2l : d2.length = m) (hd2r : ∀ r ∈ d2, r.length = T) :
    (mfcc_deltas_012 ops utt nz p).length = T ∧
    ∀ t, t < T →
      ((mfcc_deltas_012 ops utt nz p).getD t []).length = 3 * m ∧
      ∀ k, k < m →
        ((mfcc_deltas_012 ops utt nz p).getD t []).getD (3 * k) 0 =
          (M.getD k []).getD t 0 ∧
        ((mfcc_deltas_012 ops utt nz p).getD t []).getD (3 * k + 1) 0 =
          (d1.getD k []).getD t 0 ∧
        ((mfcc_deltas_012 ops utt nz p).getD t []).getD (3 * k + 2) 0 =
          (d2.getD k []).getD t 0 := by
  have hdef : mfcc_deltas_012 ops utt nz p = transposeM (interleave3 M d1 d2) := by
    rw [mfcc_deltas_012, ← hM, ← hd1, ← hd2]
  have hlen1 : M.length = d1.length := by rw [hm, hd1l]
  have hlen2 : M.length = d2.length := by rw [hm, hd2l]
  have hIlen : (interleave3 M d1 d2).length = 3 * m := by
    rw [interleave3_length M d1 d2 hlen1 hlen2, hm]
  have hIne : interleave3 M d1 d2 ≠ [] := by
    apply List.ne_nil_of_length_pos
    omega
  have hIrows : ∀ r ∈ interleave3 M d1 d2, r.length = T := by
    intro r hr
    rcases mem_interleave3 M d1 d2 r hr with h | h | h
    · exact hMr r h
    · exact hd1r r h
    · exact hd2r r h
  rw [hdef]
  refine ⟨transposeM_length _ T hIne hIrows, ?_⟩
  intro t ht
  rw [transposeM_getD _ T t hIne hIrows ht]
  refine ⟨by simp [hIlen], ?_⟩
  intro k hk
  obtain ⟨e0, e1, e2⟩ := interleave3_getD ([] : List Rat) M d1 d2 k hlen1 hlen2
    (by omega)
  refine ⟨?_, ?_, ?_⟩
  · rw [getD_map_lt _ _ (3 * k) 0 [] (by omega), e0]
  · rw [getD_map_lt _ _ (3 * k + 1) 0 [] (by omega), e1]
  · rw [getD_map_lt _ _ (3 * k + 2) 0 [] (by omega), e2]

theorem mfcc_deltas_012_interleaving_witness :
    (mfcc_deltas_012 sampleLibrosaOps ([], 0) false 1).length = 2 ∧
    ((mfcc_deltas_012 sampleLibrosaOps ([], 0) false 1).getD 0 []).length = 6 ∧
    ((mfcc_deltas_012 sampleLibrosaOps ([], 0) false 1).getD 0 []).getD 3 0 =
      (([[1, 2], [3, 4]] : List (List Rat)).getD 1 []).getD 0 0 := by
  have h := mfcc_deltas_012_interleaving sampleLibrosaOps ([], 0) false 1 2 2
    [[1, 2], [3, 4]] [[1, 2], [3, 4]] [[1, 2], [3, 4]]
    (by decide) (by decide) (by decide) (by decide) (by decide)
    (by decide) (by decide) (by decide) (by decide) (by decide)
  exact ⟨h.1, (h.2 0 (by decide)).1, ((h.2 0 (by decide)).2 1 (by decide)).1⟩

end Features

namespace Model

theorem collectTest_eq {U : Type} (l : List (String × (String × Option U))) :
    collectTest l = l.filterMap (fun x => x.2.2.map (fun u => (x.1, u))) := by
  induction l with
  | nil => rfl
  | cons x xs ih =>
    rcases x with ⟨lab, path, u⟩
    cases u <;> simp [collectTest, ih]

/-- C5: the confusion-matrix branch of `evaluate_test_set` drops every
test file whose extracted utterance is None together with that file's
label, keeps every remaining label paired with its own utterance in the
original test-set order, feeds the confusion-matrix evaluation exactly
those utterances and the integer codes of those labels, and writes the
figure into the cache directory. -/
theorem evaluate_test_set_confusion_branch_correct {U : Type}
    (labels : List String) (transformed : List (String × Option U))
    (label_to_index : String → Nat) (cache_dir best_checkpoint : String) :
    ((evaluate_test_set_confusion_branch labels transformed label_to_index
        cache_dir best_checkpoint).test_labels.zip
      (evaluate_test_set_confusion_branch labels transformed label_to_index
        cache_dir best_checkpoint).test_utterances) =
      (labels.zip transformed).filterMap
        (fun x => x.2.2.map (fun u => (x.1, u))) ∧
    (evaluate_test_set_confusion_branch labels transformed label_to_index
        cache_dir best_checkpoint).real_labels =
      (evaluate_test_set_confusion_branch labels transformed label_to_index
        cache_dir best_checkpoint).test_labels.map label_to_index ∧
    (evaluate_test_set_confusion_branch labels transformed label_to_index
        cache_dir best_checkpoint).cm_figure_path =
      joinPath cache_dir ("confusion-matrix_test-set_model-" ++
        baseName best_checkpoint ++ ".svg") := by
  refine ⟨?_, rfl, rfl⟩
  simp only [evaluate_test_set_confusion_branch]
  rw [List.zip_map', collectTest_eq]
  simp

theorem dictLookup_merge (dflt ov : Dict) (k : String) :
    dictLookup (dictMerge dflt ov) k =
      match dictLookup ov k with
      | some v => some v
      | none => dictLookup dflt k := by
  simp only [dictLookup, dictMerge, List.find?_append]
  cases h : ov.find? (fun p => p.1 == k) <;> simp [h, Option.orElse]

/-- C6: `create_model` configures a checkpointing callback exactly when
training is requested and `--no-save-model` is absent.  Without `--train`
the callback parameters hold only `device_str` (no checkpoint or
TensorBoard callbacks); with `--train` and `--no-save-model` the
checkpoints entry is None; with `--train` alone the checkpoints entry
defaults to saving only the best model by minimal validation loss
(`save_best_only` true, monitoring `val_loss` in mode `min`) into the
`checkpoints` directory under the model's cache directory, with entries of
the model config's checkpoints section overriding those defaults. -/
theorem create_model_callbacks_checkpointing (no_save_model train : Bool)
    (cache_dir model_id now_str : String) (mc : ModelConfig) :
    (train = false →
      create_model_callbacks no_save_model train cache_dir model_id now_str mc =
        .evalOnly mc.eval_device) ∧
    (train = true → no_save_model = true →
      ∃ tb, create_model_callbacks no_save_model train cache_dir model_id now_str mc =
        .training none mc.early_stopping tb) ∧
    (train = true → no_save_model = false →
      ∃ tb cfg,
        create_model_callbacks no_save_model train cache_dir model_id now_str mc =
          .training (some cfg) mc.early_stopping tb ∧
        (∀ k v, dictLookup (mc.checkpoints.getD []) k = some v →
          dictLookup cfg k = some v) ∧
        (∀ k, dictLookup (mc.checkpoints.getD []) k = none →
          dictLookup cfg k = dictLookup
            [("filepath", CVal.s (joinPath
                (joinPath (joinPath cache_dir model_id) "checkpoints")
                "epoch\x7bepoch:02d\x7d_loss\x7bval_loss:.2f\x7d.hdf5")),
             ("load_weights_on_restart", CVal.b true),
             ("mode", CVal.s "min"),
             ("monitor", CVal.s "val_loss"),
             ("save_best_only", CVal.b true),
             ("verbose", CVal.n 0)] k)) := by
  refine ⟨?_, ?_, ?_⟩
  · intro ht
    subst ht
    simp [create_model_callbacks]
  · intro ht hn
    subst ht
    subst hn
    refine ⟨dictMerge [("log_dir", CVal.s (joinPath (joinPath (joinPath
        (joinPath cache_dir model_id) "tensorboard") "log") now_str)),
      ("write_graph", CVal.b false)] (mc.tensorboard.getD []), ?_⟩
    simp [create_model_callbacks]
  · intro ht hn
    subst ht
    subst hn
    refine ⟨dictMerge [("log_dir", CVal.s (joinPath (joinPath (joinPath
        (joinPath cache_dir model_id) "tensorboard") "log") now_str)),
      ("write_graph", CVal.b false)] (mc.tensorboard.getD []),
      dictMerge [("filepath", CVal.s (joinPath (joinPath (joinPath cache_dir model_id)
          "checkpoints") "epoch\x7bepoch:02d\x7d_loss\x7bval_loss:.2f\x7d.hdf5")),
        ("load_weights_on_restart", CVal.b true), ("mode", CVal.s "min"),
        ("monitor", CVal.s "val_loss"), ("save_best_only", CVal.b true),
        ("verbose", CVal.n 0)] (mc.checkpoints.getD []), ?_, ?_, ?_⟩
    · simp [create_model_callbacks]
    · intro k v hv
      rw [dictLookup_merge]
      rw [hv]
    · intro k hv
      rw [dictLookup_merge]
      rw [hv]

theorem create_model_callbacks_checkpointing_witness :
    create_model_callbacks false false "cache" "m" "now"
      ⟨none, none, none, none⟩ = .evalOnly none ∧
    (∃ tb, create_model_callbacks true true "cache" "m" "now"
      ⟨none, none, none, none⟩ = .training none none tb) ∧
    (∃ tb cfg, create_model_callbacks false true "cache" "m" "now"
      ⟨none, none, none, none⟩ = .training (some cfg) none tb) := by
  have h1 := create_model_callbacks_checkpointing false false "cache" "m" "now"
    ⟨none, none, none, none⟩
  have h2 := create_model_callbacks_checkpointing true true "cache" "m" "now"
    ⟨none, none, none, none⟩
  have h3 := create_model_callbacks_checkpointing false true "cache" "m" "now"
    ⟨none, none, none, none⟩
  refine ⟨h1.1 rfl, h2.2.1 rfl rfl, ?_⟩
  obtain ⟨tb, cfg, heq, -, -⟩ := h3.2.2 rfl rfl
  exact ⟨tb, cfg, heq⟩

end Model

namespace Model

theorem pySplit_ne_nil (sep s : List Char) : pySplit sep s ≠ [] := by
  cases s with
  | nil => simp [pySplit]
  | cons c cs =>
    unfold pySplit
    split
    · simp
    · split <;> simp

theorem pySplit_of_not_infix (sep : List Char) :
    ∀ s : List Char, ¬ sep <:+: s → pySplit sep s = [s] := by
  intro s
  induction s with
  | nil => intro h; simp [pySplit]
  | cons c cs ih =>
    intro h
    have hnp : ¬ (sep ≠ [] ∧ sep.isPrefixOf (c :: cs)) := by
      rintro ⟨-, h2⟩
      exact h (List.isPrefixOf_iff_prefix.mp h2).isInfix
    have hcs : ¬ sep <:+: cs := fun hi => h (List.infix_cons hi)
    unfold pySplit
    rw [dif_neg hnp, ih hcs]

/-- A separator occurring in `u ++ sep ++ w` starting at position 0 with
`u` non-empty must fit entirely inside `u`, provided `sep` has no
self-overlap. -/
theorem sep_prefix_no_straddle (sep : List Char)
    (hov : ∀ k, k < sep.length → 0 < k →
      sep.drop k ≠ sep.take (sep.length - k))
    (u w : List Char) (hpre : sep <+: u ++ sep ++ w) (hu : u ≠ []) :
    sep.length ≤ u.length := by
  by_contra hlt
  push_neg at hlt
  have htake : sep = (u ++ sep ++ w).take sep.length :=
    List.prefix_iff_eq_take.mp hpre
  rw [List.append_assoc, List.take_append_eq_append_take] at htake
  have h1 : u.take sep.length = u := List.take_of_length_le (le_of_lt hlt)
  have h2 : (sep ++ w).take (sep.length - u.length) =
      sep.take (sep.length - u.length) :=
    List.take_append_of_le_length (by omega)
  rw [h1, h2] at htake
  have hdrop : sep.drop u.length = sep.take (sep.length - u.length) := by
    conv_lhs => rw [htake]
    rw [List.drop_left]
  exact hov u.length hlt (List.length_pos.mpr hu) hdrop

theorem pySplit_sep_append (sep : List Char) (hsep : sep ≠ []) (v : List Char) :
    pySplit sep (sep ++ v) = [] :: pySplit sep v := by
  obtain ⟨a, sep', rfl⟩ : ∃ a sep', sep = a :: sep' := by
    cases sep with
    | nil => exact absurd rfl hsep
    | cons a sep' => exact ⟨a, sep', rfl⟩
  rw [List.cons_append, pySplit.eq_2,
    dif_pos ⟨hsep, List.isPrefixOf_iff_prefix.mpr
      (by rw [← List.cons_append]; exact List.prefix_append _ _)⟩]
  have hdrop : List.drop (a :: sep').length (a :: (sep' ++ v)) = v := by
    rw [← List.cons_append]
    exact List.drop_left _ _
  rw [hdrop]

theorem pySplit_getLast_after_sep (sep : List Char)
    (hov : ∀ k, k < sep.length → 0 < k →
      sep.drop k ≠ sep.take (sep.length - k))
    (hsep : sep ≠ []) :
    ∀ (n : Nat) (u v : List Char), u.length ≤ n → ¬ sep <:+: v →
      2 ≤ (pySplit sep (u ++ sep ++ v)).length ∧
      (pySplit sep (u ++ sep ++ v)).getLastD [] = v := by
  intro n
  induction n with
  | zero =>
    intro u v hu hv
    have hu0 : u = [] := List.length_eq_zero.mp (Nat.le_zero.mp hu)
    subst hu0
    rw [List.nil_append, pySplit_sep_append sep hsep v,
      pySplit_of_not_infix sep v hv]
    exact ⟨by simp, rfl⟩
  | succ n ih =>
    intro u v hu hv
    cases u with
    | nil =>
      rw [List.nil_append, pySplit_sep_append sep hsep v,
        pySplit_of_not_infix sep v hv]
      exact ⟨by simp, rfl⟩
    | cons c u₁ =>
      have hspos : 0 < sep.length := List.length_pos.mpr hsep
      by_cases hp : sep.isPrefixOf (c :: (u₁ ++ sep ++ v))
      · have hpre : sep <+: (c :: u₁) ++ sep ++ v := by
          rw [List.cons_append]
          exact List.isPrefixOf_iff_prefix.mp hp
        have hlen : sep.length ≤ (c :: u₁).length :=
          sep_prefix_no_straddle sep hov (c :: u₁) v hpre (List.cons_ne_nil c u₁)
        simp only [List.cons_append]
        rw [pySplit.eq_2, dif_pos ⟨hsep, hp⟩]
        have hdrop : List.drop sep.length (c :: (u₁ ++ sep ++ v)) =
            (c :: u₁).drop sep.length ++ sep ++ v := by
          rw [show c :: (u₁ ++ sep ++ v) = (c :: u₁) ++ (sep ++ v) by simp,
            List.drop_append_of_le_length hlen, List.append_assoc]
        rw [hdrop]
        have hu1 : ((c :: u₁).drop sep.length).length ≤ n := by
          rw [List.length_drop]
          simp only [List.length_cons] at hu ⊢
          omega
        obtain ⟨hl2, hlast⟩ := ih ((c :: u₁).drop sep.length) v hu1 hv
        refine ⟨by simp only [List.length_cons]; omega, ?_⟩
        rw [List.getLastD_cons]
        exact hlast
      · simp only [List.cons_append]
        rw [pySplit.eq_2, dif_neg (by rintro ⟨-, h2⟩; exact hp h2)]
        have hu1 : u₁.length ≤ n := by
          simp only [List.length_cons] at hu
          omega
        obtain ⟨hl2, hlast⟩ := ih u₁ v hu1 hv
        cases hps : pySplit sep (u₁ ++ sep ++ v) with
        | nil => exact absurd hps (pySplit_ne_nil sep _)
        | cons g gs =>
          rw [hps] at hl2 hlast
          have hgs : gs ≠ [] := by
            intro h0
            rw [h0] at hl2
            simp at hl2
          refine ⟨?_, ?_⟩
          · simp only [List.length_cons] at hl2 ⊢
            omega
          · rw [List.getLastD_cons] at hlast ⊢
            cases hgl : gs.getLast? with
            | none => exact absurd (List.getLast?_eq_none_iff.mp hgl) hgs
            | some y =>
              rw [List.getLastD_eq_getLast?, hgl] at hlast ⊢
              exact hlast

theorem pySplit_head_before_sep (sep : List Char)
    (hov : ∀ k, k < sep.length → 0 < k →
      sep.drop k ≠ sep.take (sep.length - k))
    (hsep : sep ≠ []) :
    ∀ (w z : List Char), ¬ sep <:+: w →
      (pySplit sep (w ++ sep ++ z)).headD [] = w := by
  intro w
  induction w with
  | nil =>
    intro z hw
    rw [List.nil_append, pySplit_sep_append sep hsep z]
    rfl
  | cons c w₁ ih =>
    intro z hw
    have hp : ¬ sep.isPrefixOf (c :: (w₁ ++ sep ++ z)) := by
      intro hp
      have hpre : sep <+: (c :: w₁) ++ sep ++ z := by
        rw [List.cons_append]
        exact List.isPrefixOf_iff_prefix.mp hp
      have hlen : sep.length ≤ (c :: w₁).length :=
        sep_prefix_no_straddle sep hov (c :: w₁) z hpre (List.cons_ne_nil c w₁)
      have htk : sep = ((c :: w₁) ++ (sep ++ z)).take sep.length := by
        rw [← List.append_assoc]
        exact List.prefix_iff_eq_take.mp hpre
      rw [List.take_append_of_le_length hlen] at htk
      have hpw : sep <+: (c :: w₁) := by
        rw [htk]
        exact List.take_prefix _ _
      exact hw hpw.isInfix
    simp only [List.cons_append]
    rw [pySplit.eq_2, dif_neg (by rintro ⟨-, h2⟩; exact hp h2)]
    have hw₁ : ¬ sep <:+: w₁ := fun hi => hw (List.infix_cons hi)
    cases hps : pySplit sep (w₁ ++ sep ++ z) with
    | nil => exact absurd hps (pySplit_ne_nil sep _)
    | cons g gs =>
      have hh := ih z hw₁
      rw [hps] at hh
      simp only [List.headD_cons] at hh ⊢
      rw [hh]

theorem loss_overlap_free :
    ∀ k, k < ("loss".toList).length → 0 < k →
      ("loss".toList).drop k ≠ ("loss".toList).take (("loss".toList).length - k) := by
  decide

theorem hdf5_overlap_free :
    ∀ k, k < (".hdf5".toList).length → 0 < k →
      (".hdf5".toList).drop k ≠ (".hdf5".toList).take ((".hdf5".toList).length - k) := by
  decide

theorem pymin_spec (key : List Char → Rat) :
    ∀ (xs : List (List Char)) (b : List Char),
      (pymin key b xs = b ∨ pymin key b xs ∈ xs) ∧
      key (pymin key b xs) ≤ key b ∧
      ∀ g ∈ xs, key (pymin key b xs) ≤ key g := by
  intro xs
  induction xs with
  | nil =>
    intro b
    exact ⟨Or.inl rfl, le_refl _, by simp⟩
  | cons x xs ih =>
    intro b
    by_cases h : key x < key b
    · have hx := ih x
      rw [show pymin key b (x :: xs) = pymin key x xs by
        rw [pymin.eq_2, if_pos h]]
      refine ⟨?_, ?_, ?_⟩
      · rcases hx.1 with h1 | h1
        · exact Or.inr (by rw [h1]; exact List.mem_cons_self x xs)
        · exact Or.inr (List.mem_cons_of_mem x h1)
      · exact le_of_lt (lt_of_le_of_lt hx.2.1 h)
      · intro g hg
        rcases List.mem_cons.mp hg with rfl | hg
        · exact hx.2.1
        · exact hx.2.2 g hg
    · have hb := ih b
      rw [show pymin key b (x :: xs) = pymin key b xs by
        rw [pymin.eq_2, if_neg h]]
      refine ⟨?_, ?_, ?_⟩
      · rcases hb.1 with h1 | h1
        · exact Or.inl h1
        · exact Or.inr (List.mem_cons_of_mem x h1)
      · exact hb.2.1
      · intro g hg
        rcases List.mem_cons.mp hg with rfl | hg
        · exact le_trans hb.2.1 (le_of_not_lt h)
        · exact hb.2.2 g hg

/-- C9: `get_best_weights_checkpoint` returns the Python integer 1 (not a
path) when the checkpoints directory listing is empty; on a non-empty
listing it returns the full path of the checkpoint filename minimizing
`get_loss_as_float`; and `get_loss_as_float` passes to `float` exactly the
text between the last occurrence of "loss" in the filename and the
following ".hdf5". -/
theorem get_best_weights_checkpoint_correct (toFloat : List Char → Rat)
    (cache_dir model_id : String) (listing : List (List Char)) :
    (listing = [] →
      get_best_weights_checkpoint toFloat cache_dir model_id listing = .errCode 1) ∧
    (listing ≠ [] → ∃ best ∈ listing,
      get_best_weights_checkpoint toFloat cache_dir model_id listing =
        .path ((joinPath (joinPath cache_dir model_id) "checkpoints").toList ++
          '/' :: best) ∧
      ∀ g ∈ listing, get_loss_as_float toFloat best ≤ get_loss_as_float toFloat g) ∧
    (∀ (u w z : List Char), ¬ ("loss".toList <:+: w ++ ".hdf5".toList ++ z) →
      ¬ (".hdf5".toList <:+: w) →
      get_loss_as_float toFloat (u ++ "loss".toList ++ (w ++ ".hdf5".toList ++ z)) =
        toFloat w) := by
  refine ⟨?_, ?_, ?_⟩
  · intro h
    subst h
    rfl
  · intro h
    cases listing with
    | nil => exact absurd rfl h
    | cons f fs =>
      obtain ⟨hmem, hmin, hall⟩ := pymin_spec (get_loss_as_float toFloat) fs f
      refine ⟨pymin (get_loss_as_float toFloat) f fs, ?_, rfl, ?_⟩
      · rcases hmem with h1 | h1
        · rw [h1]
          exact List.mem_cons_self f fs
        · exact List.mem_cons_of_mem f h1
      · intro g hg
        rcases List.mem_cons.mp hg with rfl | hg
        · exact hmin
        · exact hall g hg
  · intro u w z hlossv hw
    unfold get_loss_as_float
    have h1 := pySplit_getLast_after_sep "loss".toList loss_overlap_free
      (by decide) u.length u (w ++ ".hdf5".toList ++ z) (le_refl _) hlossv
    rw [h1.2]
    rw [pySplit_head_before_sep ".hdf5".toList hdf5_overlap_free (by decide) w z hw]


theorem get_best_weights_checkpoint_correct_witness :
    get_best_weights_checkpoint (fun s => (s.length : Rat)) "cache" "m" [] =
      .errCode 1 ∧
    (∃ best ∈ ["a".toList, "bb".toList],
      get_best_weights_checkpoint (fun s => (s.length : Rat)) "cache" "m"
        ["a".toList, "bb".toList] =
        .path ((joinPath (joinPath "cache" "m") "checkpoints").toList ++
          '/' :: best) ∧
      ∀ g ∈ ["a".toList, "bb".toList],
        get_loss_as_float (fun s => (s.length : Rat)) best ≤
          get_loss_as_float (fun s => (s.length : Rat)) g) ∧
    get_loss_as_float (fun s => (s.length : Rat))
      ("epoch01_".toList ++ "loss".toList ++
        ("0.47".toList ++ ".hdf5".toList ++ [])) =
      (fun s => (s.length : Rat)) "0.47".toList := by
  have h1 := get_best_weights_checkpoint_correct (fun s => (s.length : Rat))
    "cache" "m" []
  have h2 := get_best_weights_checkpoint_correct (fun s => (s.length : Rat))
    "cache" "m" ["a".toList, "bb".toList]
  refine ⟨h1.1 rfl, h2.2.1 (by simp), ?_⟩
  exact h2.2.2 "epoch01_".toList "0.47".toList [] (by decide) (by decide)

end Model

namespace TfUtil

theorem incAt_length (row : List Nat) : ∀ j : Nat, (incAt row j).length = row.length := by
  induction row with
  | nil => intro j; rfl
  | cons x xs ih =>
    intro j
    cases j with
    | zero => rfl
    | succ j => simp [incAt, ih j]

theorem incAt_getD (row : List Nat) : ∀ (j k : Nat), j < row.length → k < row.length →
    (incAt row j).getD k 0 = row.getD k 0 + (if k = j then 1 else 0) := by
  induction row with
  | nil => intro j k hj hk; simp at hj
  | cons x xs ih =>
    intro j k hj hk
    cases j with
    | zero =>
      cases k with
      | zero => simp [incAt]
      | succ k => simp [incAt, List.getD_cons_succ]
    | succ j =>
      cases k with
      | zero => simp [incAt]
      | succ k =>
        simp only [incAt, List.getD_cons_succ]
        rw [ih j k (by simpa using hj) (by simpa using hk)]
        by_cases h : k = j <;> simp [h]

theorem zipWith_getD {α β γ : Type} (f : α → β → γ) (as : List α) :
    ∀ (bs : List β) (d : Nat) (da : α) (db : β) (dc : γ),
    d < as.length → d < bs.length →
    (List.zipWith f as bs).getD d dc = f (as.getD d da) (bs.getD d db) := by
  induction as with
  | nil => intro bs d da db dc ha hb; simp at ha
  | cons a as ih =>
    intro bs d da db dc ha hb
    cases bs with
    | nil => simp at hb
    | cons b bs =>
      cases d with
      | zero => simp
      | succ d =>
        simp only [List.zipWith_cons_cons, List.getD_cons_succ]
        exact ih bs d da db dc (by simpa using ha) (by simpa using hb)

theorem getD_replicate_lt {α : Type} (n d : Nat) (a dflt : α) (hd : d < n) :
    (List.replicate n a).getD d dflt = a := by
  rw [List.getD_eq_getElem?_getD, List.getElem?_replicate]
  simp [hd]

theorem le_foldl_max (l : List Nat) : ∀ b : Nat, b ≤ l.foldl max b := by
  induction l with
  | nil => intro b; exact le_refl b
  | cons x xs ih => intro b; exact le_trans (Nat.le_max_left b x) (ih (max b x))

theorem mem_le_foldl_max (l : List Nat) : ∀ (b a : Nat), a ∈ l → a ≤ l.foldl max b := by
  induction l with
  | nil => intro b a ha; cases ha
  | cons x xs ih =>
    intro b a ha
    rcases List.mem_cons.mp ha with rfl | ha
    · exact le_trans (Nat.le_max_right b a) (le_foldl_max xs (max b a))
    · exact ih (max b x) a ha

theorem foldl_zipmax_length (shapes : List (List Nat)) :
    ∀ acc : List Nat, (∀ s ∈ shapes, s.length = acc.length) →
    (shapes.foldl (fun acc s => acc.zipWith max s) acc).length = acc.length := by
  induction shapes with
  | nil => intro acc _; rfl
  | cons s ss ih =>
    intro acc h
    have hs : s.length = acc.length := h s (List.mem_cons_self s ss)
    have hlen : (acc.zipWith max s).length = acc.length := by
      rw [List.length_zipWith]
      omega
    rw [List.foldl_cons,
      ih (acc.zipWith max s) (fun t ht => by rw [hlen]; exact h t (List.mem_cons_of_mem s ht)),
      hlen]

theorem foldl_zipmax_ge (shapes : List (List Nat)) :
    ∀ (acc : List Nat) (d : Nat), d < acc.length →
    (∀ s ∈ shapes, s.length = acc.length) →
    acc.getD d 0 ≤ (shapes.foldl (fun acc s => acc.zipWith max s) acc).getD d 0 ∧
    ∀ s ∈ shapes,
      s.getD d 0 ≤ (shapes.foldl (fun acc s => acc.zipWith max s) acc).getD d 0 := by
  induction shapes with
  | nil =>
    intro acc d hd _
    exact ⟨le_refl _, by simp⟩
  | cons s ss ih =>
    intro acc d hd h
    have hs : s.length = acc.length := h s (List.mem_cons_self s ss)
    have hlen : (acc.zipWith max s).length = acc.length := by
      rw [List.length_zipWith]
      omega
    have hstep : (acc.zipWith max s).getD d 0 = max (acc.getD d 0) (s.getD d 0) :=
      zipWith_getD max acc s d 0 0 0 hd (by omega)
    have hrec := ih (acc.zipWith max s) d (by omega)
      (fun t ht => by rw [hlen]; exact h t (List.mem_cons_of_mem s ht))
    rw [List.foldl_cons]
    refine ⟨?_, ?_⟩
    · have hle : acc.getD d 0 ≤ (acc.zipWith max s).getD d 0 := by
        rw [hstep]
        exact Nat.le_max_left _ _
      exact le_trans hle hrec.1
    · intro t ht
      rcases List.mem_cons.mp ht with rfl | ht
      · have hle : t.getD d 0 ≤ (acc.zipWith max t).getD d 0 := by
          rw [hstep]
          exact Nat.le_max_right _ _
        exact le_trans hle hrec.1
      · exact hrec.2 t ht

theorem foldl_scatter_spec (ndims W : Nat) (shapes : List (List Nat)) :
    ∀ counter : List (List Nat),
      (∀ s ∈ shapes, s.length = ndims) →
      counter.length = ndims →
      (∀ d, d < ndims → (counter.getD d []).length = W) →
      (∀ s ∈ shapes, ∀ d, d < ndims → s.getD d 0 < W) →
      (shapes.foldl (fun c sh => c.zipWith incAt sh) counter).length = ndims ∧
      (∀ d, d < ndims →
        ((shapes.foldl (fun c sh => c.zipWith incAt sh) counter).getD d []).length = W) ∧
      (∀ d v, d < ndims → v < W →
        ((shapes.foldl (fun c sh => c.zipWith incAt sh) counter).getD d []).getD v 0 =
          (counter.getD d []).getD v 0 + (shapes.map (fun s => s.getD d 0)).count v) := by
  induction shapes with
  | nil =>
    intro counter h1 h2 h3 h4
    exact ⟨h2, h3, by intro d v hd hv; simp⟩
  | cons s ss ih =>
    intro counter h1 h2 h3 h4
    have hs : s.length = ndims := h1 s (List.mem_cons_self s ss)
    have hlen : (counter.zipWith incAt s).length = ndims := by
      rw [List.length_zipWith]
      omega
    have hrow : ∀ d, d < ndims → ((counter.zipWith incAt s).getD d []).length = W := by
      intro d hd
      rw [zipWith_getD incAt counter s d [] 0 [] (by omega) (by omega), incAt_length]
      exact h3 d hd
    have hval : ∀ d v, d < ndims → v < W →
        ((counter.zipWith incAt s).getD d []).getD v 0 =
          (counter.getD d []).getD v 0 + (if v = s.getD d 0 then 1 else 0) := by
      intro d v hd hv
      rw [zipWith_getD incAt counter s d [] 0 [] (by omega) (by omega)]
      exact incAt_getD _ _ _
        (by rw [h3 d hd]; exact h4 s (List.mem_cons_self s ss) d hd)
        (by rw [h3 d hd]; exact hv)
    have hrec := ih (counter.zipWith incAt s)
      (fun t ht => h1 t (List.mem_cons_of_mem s ht)) hlen hrow
      (fun t ht => h4 t (List.mem_cons_of_mem s ht))
    rw [List.foldl_cons]
    refine ⟨hrec.1, hrec.2.1, ?_⟩
    intro d v hd hv
    rw [hrec.2.2 d v hd hv, hval d v hd hv, List.map_cons]
    by_cases h : v = s.getD d 0
    · subst h
      rw [List.count_cons_self, if_pos rfl]
      omega
    · rw [List.count_cons_of_ne h, if_neg h]
      omega

end TfUtil

namespace TfUtil

theorem processRow_mem (row : List Nat) (c v : Nat) :
    (c, v) ∈ processRow row ↔ 0 < c ∧ v < row.length ∧ row.getD v 0 = c := by
  unfold processRow
  constructor
  · intro h
    obtain ⟨p, hmem, heq⟩ := List.mem_map.mp h
    obtain ⟨hm1, hm2⟩ := List.mem_filter.mp hmem
    have hms : p ∈ row.enum := (List.mem_insertionSort _).mp hm1
    have hget : row[p.1]? = some p.2 := List.mem_enum_iff_getElem?.mp hms
    have hlt : p.1 < row.length := by
      by_contra hge
      rw [List.getElem?_eq_none (by omega)] at hget
      cases hget
    have hc : p.2 = c := by
      have := congrArg Prod.fst heq
      simpa using this
    have hv : p.1 = v := by
      have := congrArg Prod.snd heq
      simpa using this
    subst hc
    subst hv
    refine ⟨by simpa using hm2, hlt, ?_⟩
    rw [List.getD_eq_getElem?_getD, hget]
    rfl
  · rintro ⟨hc, hv, hval⟩
    apply List.mem_map.mpr
    refine ⟨(v, c), ?_, rfl⟩
    apply List.mem_filter.mpr
    refine ⟨(List.mem_insertionSort _).mpr ?_, by simpa using hc⟩
    apply List.mem_enum_iff_getElem?.mpr
    rw [List.getElem?_eq_getElem hv]
    rw [List.getD_eq_getElem?_getD, List.getElem?_eq_getElem hv] at hval
    exact congrArg some hval

theorem processRow_sorted (row : List Nat) :
    (processRow row).Pairwise (fun p q : Nat × Nat => q.1 ≤ p.1) := by
  unfold processRow
  haveI instTot : IsTotal (Nat × Nat) (fun p q : Nat × Nat => q.2 ≤ p.2) :=
    ⟨fun a b => (le_total b.2 a.2)⟩
  haveI instTr : IsTrans (Nat × Nat) (fun p q : Nat × Nat => q.2 ≤ p.2) :=
    ⟨fun a b c hab hbc => le_trans hbc hab⟩
  have hs : (row.enum.insertionSort (fun p q : Nat × Nat => q.2 ≤ p.2)).Pairwise
      (fun p q : Nat × Nat => q.2 ≤ p.2) :=
    List.sorted_insertionSort _ _
  have hsub : (List.filter (fun p : Nat × Nat => decide (0 < p.2))
      (row.enum.insertionSort (fun p q : Nat × Nat => q.2 ≤ p.2))).Sublist
      (row.enum.insertionSort (fun p q : Nat × Nat => q.2 ≤ p.2)) :=
    List.filter_sublist _
  have hf := hs.sublist hsub
  exact hf.map _ (fun a b h => h)

theorem processRow_nodup (row : List Nat) :
    ((processRow row).map Prod.snd).Nodup := by
  unfold processRow
  rw [List.map_map]
  have hcomp : (Prod.snd ∘ fun p : Nat × Nat => (p.2, p.1)) = Prod.fst := rfl
  rw [hcomp]
  have hperm : ((row.enum.insertionSort (fun p q : Nat × Nat => q.2 ≤ p.2)).map
      Prod.fst).Perm (row.enum.map Prod.fst) :=
    (List.perm_insertionSort _ _).map _
  have hnd : ((row.enum.insertionSort (fun p q : Nat × Nat => q.2 ≤ p.2)).map
      Prod.fst).Nodup :=
    hperm.nodup_iff.mpr (List.nodup_enum_map_fst row)
  have hsub : (List.filter (fun p : Nat × Nat => decide (0 < p.2))
      (row.enum.insertionSort (fun p q : Nat × Nat => q.2 ≤ p.2))).Sublist
      (row.enum.insertionSort (fun p q : Nat × Nat => q.2 ≤ p.2)) :=
    List.filter_sublist _
  exact hnd.sublist (hsub.map _)

/-- C3: for every dataset of tensors that are `ndims`-dimensional at the
selected element index (`ndims > 0`), `count_dim_sizes` succeeds and
returns one row per axis; row `d` contains the pair `(count, size)`
exactly for the sizes occurring in axis `d` across the dataset (`count`
being the number of dataset elements with that size in that axis, sizes of
count zero omitted), listed in descending order of count and without
repeated sizes. -/
theorem count_dim_sizes_correct (ds : List (List (Tensor Rat)))
    (i ndims : Nat) (hnd : 0 < ndims)
    (hsh : ∀ es ∈ ds, ((tupleGet es i).shape).length = ndims) :
    (∃ L, count_dim_sizes ds i ndims = .ok L) ∧
    ∀ L, count_dim_sizes ds i ndims = .ok L →
      L.length = ndims ∧
      ∀ d, d < ndims →
        (∀ c v, (c, v) ∈ L.getD d [] ↔
          (0 < c ∧
            ((ds.map (fun es => (tupleGet es i).shape)).map
              (fun s => s.getD d 0)).count v = c)) ∧
        (L.getD d []).Pairwise (fun p q : Nat × Nat => q.1 ≤ p.1) ∧
        ((L.getD d []).map Prod.snd).Nodup := by
  have hsl : ∀ s ∈ ds.map (fun es => (tupleGet es i).shape), s.length = ndims := by
    intro s hs
    obtain ⟨es, hes, rfl⟩ := List.mem_map.mp hs
    exact hsh es hes
  set shapes := ds.map (fun es => (tupleGet es i).shape) with hshapes
  set M := (shapes.foldl (fun acc s => acc.zipWith max s)
    (List.replicate ndims 0)).foldl max 0 with hMdef
  have hocc : ∀ s ∈ shapes, ∀ d, d < ndims → s.getD d 0 < M + 1 := by
    intro s hs d hd
    have hge := (foldl_zipmax_ge shapes (List.replicate ndims 0) d
      (by simpa using hd) (fun t ht => by simp [hsl t ht])).2 s hs
    have hmlen : (shapes.foldl (fun acc s => acc.zipWith max s)
        (List.replicate ndims 0)).length = ndims := by
      rw [foldl_zipmax_length shapes (List.replicate ndims 0)
        (fun t ht => by simp [hsl t ht])]
      simp
    have hmem : (shapes.foldl (fun acc s => acc.zipWith max s)
        (List.replicate ndims 0)).getD d 0 ∈
        shapes.foldl (fun acc s => acc.zipWith max s) (List.replicate ndims 0) := by
      rw [List.getD_eq_getElem?_getD, List.getElem?_eq_getElem (by omega)]
      exact List.getElem_mem _
    have hle := mem_le_foldl_max _ 0 _ hmem
    omega
  have hcnt := foldl_scatter_spec ndims (M + 1) shapes
    (List.replicate ndims (List.replicate (M + 1) 0)) hsl (by simp)
    (fun d hd => by rw [getD_replicate_lt ndims d _ [] hd]; simp) hocc
  have hok : count_dim_sizes ds i ndims = .ok ((shapes.foldl
      (fun counter shape => counter.zipWith incAt shape)
      (List.replicate ndims (List.replicate (M + 1) 0))).map processRow) := by
    unfold count_dim_sizes
    rw [if_neg (by omega)]
  refine ⟨⟨_, hok⟩, ?_⟩
  intro L hL
  rw [hok] at hL
  injection hL with hL
  subst hL
  refine ⟨by rw [List.length_map, hcnt.1], ?_⟩
  intro d hd
  have hrow := getD_map_lt (shapes.foldl
      (fun counter shape => counter.zipWith incAt shape)
      (List.replicate ndims (List.replicate (M + 1) 0))) processRow d [] []
    (by rw [hcnt.1]; exact hd)
  rw [hrow]
  refine ⟨?_, processRow_sorted _, processRow_nodup _⟩
  intro c v
  rw [processRow_mem]
  have hrl := hcnt.2.1 d hd
  have hrv : ∀ w, w < M + 1 →
      ((shapes.foldl (fun counter shape => counter.zipWith incAt shape)
        (List.replicate ndims (List.replicate (M + 1) 0))).getD d []).getD w 0 =
        (shapes.map (fun s => s.getD d 0)).count w := by
    intro w hw
    rw [hcnt.2.2 d w hd hw, getD_replicate_lt ndims d _ [] hd,
      getD_replicate_lt _ w _ 0 hw]
    omega
  constructor
  · rintro ⟨hc, hv, hval⟩
    rw [hrl] at hv
    exact ⟨hc, by rw [← hrv v hv, hval]⟩
  · rintro ⟨hc, hval⟩
    have hvm : v ∈ shapes.map (fun s => s.getD d 0) := by
      rw [← List.count_pos_iff_mem]
      omega
    obtain ⟨s, hs, hsv⟩ := List.mem_map.mp hvm
    have hvlt : v < M + 1 := by
      rw [← hsv]
      exact hocc s hs d hd
    exact ⟨hc, by rw [hrl]; exact hvlt, by rw [hrv v hvlt, hval]⟩

theorem count_dim_sizes_correct_witness :
    (∃ L, count_dim_sizes [[Tensor.arr [Tensor.scalar 0]],
      [Tensor.arr [Tensor.scalar 0]]] 0 1 = .ok L) ∧
    ∀ L, count_dim_sizes [[Tensor.arr [Tensor.scalar 0]],
      [Tensor.arr [Tensor.scalar 0]]] 0 1 = .ok L → (2, 1) ∈ L.getD 0 [] := by
  have h := count_dim_sizes_correct
    [[Tensor.arr [Tensor.scalar 0]], [Tensor.arr [Tensor.scalar 0]]] 0 1
    (by decide) (by decide)
  refine ⟨h.1, ?_⟩
  intro L hL
  exact (((h.2 L hL).2 0 (by decide)).1 2 1).mpr ⟨by decide, by decide⟩

end TfUtil





